import Mathlib

/-!
Shallow embedding of the bold-nfs NFSv4.0 server core (Rust) and proofs
about the behaviour of its COMPOUND dispatcher, client manager, wire
codec, file manager, READDIR/PUTFH/REMOVE/READ operations and the
attribute-bitmap codec.

Each definition mirrors one Rust item of the repository; the file of
origin is named in the doc comment.  Byte strings are modelled as
`List Nat` (each element a byte value), machine integers as `Nat` with
explicit `% 2 ^ w` where overflow matters.
-/

namespace BoldNfs

/-- Status codes (`NfsStat4`, proto/src/nfs4_proto.rs) — the subset the
embedded operations produce. -/
inductive NfsStat4 where
  | nfs4Ok
  | nfs4errServerfault
  | nfs4errNotsupp
  | nfs4errStale
  | nfs4errStaleClientid
  | nfs4errClidInuse
  | nfs4errFhexpired
  | nfs4errNotSame
  | nfs4errNoent
  deriving DecidableEq, Repr

/-! ## COMPOUND dispatch (bold-lib/src/server/nfs40.rs, `NFS40Server::compound`)

Each operation handler returns an `NfsOpResponse` carrying an optional
result payload and a status.  The dispatcher walks the argument array in
order; we model the handlers' outcomes as a list of
`(Option R × NfsStat4)` pairs (`R` the result-payload type) and embed the
loop body of `compound` literally: push the payload if present, break if
absent, and return early on a non-OK status. -/

/-- The loop of `NFS40Server::compound`: `acc` is `resarray`, `last` is
`last_status` (initially `Nfs4Ok`). -/
def compoundGo {R : Type} :
    List (Option R × NfsStat4) → List R → NfsStat4 → List R × NfsStat4
  | [], acc, last => (acc, last)
  | (res, st) :: rest, acc, _ =>
    match res with
    | some r =>
      match st with
      | NfsStat4.nfs4Ok => compoundGo rest (acc ++ [r]) NfsStat4.nfs4Ok
      | _ => (acc ++ [r], st)
    | none => (acc, st)

/-- `NFS40Server::compound` reduced to its reply payload: the final
`resarray` and the top-level `status` of the `Compound4res`. -/
def compound {R : Type} (ops : List (Option R × NfsStat4)) : List R × NfsStat4 :=
  compoundGo ops [] NfsStat4.nfs4Ok

theorem length_filterMap_fst_of_isSome {R : Type}
    {l : List (Option R × NfsStat4)} (h : ∀ p ∈ l, p.1 ≠ none) :
    (l.filterMap Prod.fst).length = l.length := by
  induction l with
  | nil => rfl
  | cons p rest ih =>
    obtain ⟨r, st⟩ := p
    cases r with
    | none => exact absurd rfl (h (none, st) (List.mem_cons_self _ _))
    | some x =>
      simp only [List.filterMap_cons, List.length_cons]
      rw [ih fun q hq => h q (List.mem_cons_of_mem _ hq)]

theorem compoundGo_all_ok {R : Type}
    {l : List (Option R × NfsStat4)} (acc : List R)
    (h : ∀ p ∈ l, p.1 ≠ none ∧ p.2 = NfsStat4.nfs4Ok) :
    compoundGo l acc NfsStat4.nfs4Ok =
      (acc ++ l.filterMap Prod.fst, NfsStat4.nfs4Ok) := by
  induction l generalizing acc with
  | nil => simp [compoundGo]
  | cons p rest ih =>
    obtain ⟨r, st⟩ := p
    have hp := h (r, st) (List.mem_cons_self _ _)
    cases r with
    | none => exact absurd rfl hp.1
    | some x =>
      have hst : st = NfsStat4.nfs4Ok := hp.2
      subst hst
      simp only [compoundGo, List.filterMap_cons]
      rw [ih (acc ++ [x]) fun q hq => h q (List.mem_cons_of_mem _ hq)]
      simp

theorem compoundGo_fail {R : Type}
    {pre : List (Option R × NfsStat4)} (post : List (Option R × NfsStat4))
    (r : Option R) (st : NfsStat4) (acc : List R)
    (hpre : ∀ p ∈ pre, p.1 ≠ none ∧ p.2 = NfsStat4.nfs4Ok)
    (hst : st ≠ NfsStat4.nfs4Ok) :
    compoundGo (pre ++ (r, st) :: post) acc NfsStat4.nfs4Ok =
      (acc ++ pre.filterMap Prod.fst ++ r.toList, st) := by
  induction pre generalizing acc with
  | nil =>
    cases r with
    | none => simp [compoundGo]
    | some x =>
      cases st with
      | nfs4Ok => exact absurd rfl hst
      | nfs4errServerfault => simp [compoundGo]
      | nfs4errNotsupp => simp [compoundGo]
      | nfs4errStale => simp [compoundGo]
      | nfs4errStaleClientid => simp [compoundGo]
      | nfs4errClidInuse => simp [compoundGo]
      | nfs4errFhexpired => simp [compoundGo]
      | nfs4errNotSame => simp [compoundGo]
      | nfs4errNoent => simp [compoundGo]
  | cons p rest ih =>
    obtain ⟨q, qst⟩ := p
    have hp := hpre (q, qst) (List.mem_cons_self _ _)
    cases q with
    | none => exact absurd rfl hp.1
    | some x =>
      have hq : qst = NfsStat4.nfs4Ok := hp.2
      subst hq
      simp only [List.cons_append, compoundGo, List.filterMap_cons, List.append_eq]
      rw [ih (acc ++ [x]) fun p hp => hpre p (List.mem_cons_of_mem _ hp)]
      simp

/-- C1.  COMPOUND short-circuit: with handlers that always attach a result
payload to an OK status (true of every operation of the server), (i) an
all-OK argument array yields an OK reply with one result per operation,
and (ii) if the k-th operation is the first with a non-OK status, the
reply's `resarray` holds the results of the first k-1 operations plus the
k-th partial result when present, the top-level status is the k-th
status, and the reply is the same as if the operations after position k
were absent (they are not executed). -/
theorem compound_short_circuit {R : Type} (ops : List (Option R × NfsStat4))
    (hsome : ∀ p ∈ ops, p.2 = NfsStat4.nfs4Ok → p.1 ≠ none) :
    ((∀ p ∈ ops, p.2 = NfsStat4.nfs4Ok) →
      compound ops = (ops.filterMap Prod.fst, NfsStat4.nfs4Ok) ∧
        (ops.filterMap Prod.fst).length = ops.length) ∧
    (∀ pre post (r : Option R) st, ops = pre ++ (r, st) :: post →
      (∀ p ∈ pre, p.2 = NfsStat4.nfs4Ok) → st ≠ NfsStat4.nfs4Ok →
      compound ops = (pre.filterMap Prod.fst ++ r.toList, st) ∧
        (pre.filterMap Prod.fst).length = pre.length ∧
        compound ops = compound (pre ++ [(r, st)])) := by
  constructor
  · intro hok
    have h : ∀ p ∈ ops, p.1 ≠ none ∧ p.2 = NfsStat4.nfs4Ok :=
      fun p hp => ⟨hsome p hp (hok p hp), hok p hp⟩
    refine ⟨?_, length_filterMap_fst_of_isSome fun p hp => (h p hp).1⟩
    unfold compound
    rw [compoundGo_all_ok [] h]
    simp
  · intro pre post r st hops hpre hst
    subst hops
    have hpre' : ∀ p ∈ pre, p.1 ≠ none ∧ p.2 = NfsStat4.nfs4Ok := by
      intro p hp
      exact ⟨hsome p (List.mem_append_left _ hp) (hpre p hp), hpre p hp⟩
    refine ⟨?_, length_filterMap_fst_of_isSome fun p hp => (hpre' p hp).1, ?_⟩
    · unfold compound
      rw [compoundGo_fail post r st [] hpre' hst]
      simp
    · unfold compound
      rw [compoundGo_fail post r st [] hpre' hst,
          compoundGo_fail [] r st [] hpre' hst]

/-- Witness for C1 at a concrete COMPOUND: three operations, the second
fails with `STALE`; the reply holds two results and status `STALE`, and
equals the reply of the two-operation prefix. -/
theorem compound_short_circuit_witness :
    compound [(some 10, NfsStat4.nfs4Ok), (some 20, NfsStat4.nfs4errStale),
        (some 30, NfsStat4.nfs4Ok)] = ([10, 20], NfsStat4.nfs4errStale) ∧
    compound [(some 10, NfsStat4.nfs4Ok), (some 20, NfsStat4.nfs4errStale),
        (some 30, NfsStat4.nfs4Ok)] =
      compound [(some 10, NfsStat4.nfs4Ok), (some 20, NfsStat4.nfs4errStale)] := by
  have h := compound_short_circuit (R := Nat)
    [(some 10, NfsStat4.nfs4Ok), (some 20, NfsStat4.nfs4errStale),
      (some 30, NfsStat4.nfs4Ok)] (by decide)
  have h2 := h.2 [(some 10, NfsStat4.nfs4Ok)] [(some 30, NfsStat4.nfs4Ok)]
    (some 20) NfsStat4.nfs4errStale rfl (by decide) (by decide)
  exact ⟨by rw [h2.1]; rfl, h2.2.2⟩

/-! ## Client manager (src/src/server/clientmanager.rs)

The client table is a multi-index map over `ClientEntry`; we model it as
a `List ClientEntry` (insertion order), `get_by_clientid` as a filter,
`remove_by_setclientid_confirm` as a filter on the unique cookie index
and `modify_by_setclientid_confirm` as a map. -/

/-- `ClientCallback` (clientmanager.rs). -/
structure ClientCallback where
  program : Nat
  rnetid : List Nat
  raddr : List Nat
  callback_ident : Nat
  deriving DecidableEq, Repr

/-- `ClientEntry` (clientmanager.rs): optional principal, 8-byte verifier,
id string, numeric client id, callback, 8-byte `setclientid_confirm`
cookie, confirmed flag.  Strings and byte arrays are `List Nat`. -/
structure ClientEntry where
  principal : Option (List Nat)
  verifier : List Nat
  id : List Nat
  clientid : Nat
  callback : ClientCallback
  setclientid_confirm : List Nat
  confirmed : Bool
  deriving DecidableEq, Repr

/-- The `old_confirmed` accumulator update of one iteration of the
`for entry in entries` loop of `ClientManager::confirm_client`. -/
def oldStep (cookie : List Nat) (acc : Option ClientEntry) (e : ClientEntry) :
    Option ClientEntry :=
  if e.confirmed = true ∧ e.setclientid_confirm ≠ cookie then some e else acc

/-- The `new_confirmed` accumulator update of one iteration of the same
loop: on a cookie match the entry is copied with `confirmed` set. -/
def newStep (cookie : List Nat) (acc : Option ClientEntry) (e : ClientEntry) :
    Option ClientEntry :=
  if e.setclientid_confirm = cookie then some { e with confirmed := true } else acc

/-- The `for entry in entries` loop of `ClientManager::confirm_client`:
returns `CLID_INUSE` at the first principal mismatch, otherwise threads
the `old_confirmed` / `new_confirmed` accumulators. -/
def confirmLoop (principal : Option (List Nat)) (cookie : List Nat) :
    List ClientEntry → Option ClientEntry → Option ClientEntry →
    Except NfsStat4 (Option ClientEntry × Option ClientEntry)
  | [], oldc, newc => .ok (oldc, newc)
  | e :: rest, oldc, newc =>
    if e.principal ≠ principal then .error NfsStat4.nfs4errClidInuse
    else confirmLoop principal cookie rest (oldStep cookie oldc e) (newStep cookie newc e)

/-- `remove_by_setclientid_confirm` (the cookie is a unique index). -/
def removeByCookie (db : List ClientEntry) (cookie : List Nat) : List ClientEntry :=
  db.filter fun e => e.setclientid_confirm ≠ cookie

/-- `modify_by_setclientid_confirm(…, |c| c.confirmed = true)`. -/
def confirmByCookie (db : List ClientEntry) (cookie : List Nat) : List ClientEntry :=
  db.map fun e =>
    if e.setclientid_confirm = cookie then { e with confirmed := true } else e

/-- `ClientManager::confirm_client(client_id, setclientid_confirm,
principal)`: result plus the table after the call's mutations. -/
def confirm_client (db : List ClientEntry) (client_id : Nat)
    (setclientid_confirm : List Nat) (principal : Option (List Nat)) :
    Except NfsStat4 ClientEntry × List ClientEntry :=
  let entries := db.filter fun e => e.clientid = client_id
  if entries.isEmpty then (.error NfsStat4.nfs4errStaleClientid, db)
  else
    match confirmLoop principal setclientid_confirm entries none none with
    | .error st => (.error st, db)
    | .ok (oldc, newc) =>
      let db1 := match oldc with
        | some old => removeByCookie db old.setclientid_confirm
        | none => db
      match newc with
      | some nc => (.ok nc, confirmByCookie db1 nc.setclientid_confirm)
      | none => (.error NfsStat4.nfs4errStaleClientid, db1)

theorem confirmLoop_error_of_mismatch {p : Option (List Nat)} {c : List Nat}
    {l : List ClientEntry} (oldc newc : Option ClientEntry)
    (h : ∃ e ∈ l, e.principal ≠ p) :
    confirmLoop p c l oldc newc = .error NfsStat4.nfs4errClidInuse := by
  induction l generalizing oldc newc with
  | nil => obtain ⟨e, he, _⟩ := h; exact absurd he (List.not_mem_nil e)
  | cons x rest ih =>
    by_cases hx : x.principal = p
    · simp only [confirmLoop]
      rw [if_neg (by simp [hx])]
      obtain ⟨e, he, hep⟩ := h
      rcases List.mem_cons.mp he with h1 | h1
      · exact absurd (h1 ▸ hx) hep
      · exact ih _ _ ⟨e, h1, hep⟩
    · simp only [confirmLoop]
      rw [if_pos hx]

theorem confirmLoop_ok_of_match {p : Option (List Nat)} {c : List Nat}
    {l : List ClientEntry} (oldc newc : Option ClientEntry)
    (h : ∀ e ∈ l, e.principal = p) :
    confirmLoop p c l oldc newc =
      .ok (l.foldl (oldStep c) oldc, l.foldl (newStep c) newc) := by
  induction l generalizing oldc newc with
  | nil => rfl
  | cons x rest ih =>
    have hx := h x (List.mem_cons_self _ _)
    simp only [confirmLoop, hx, ne_eq, not_true_eq_false, if_false, List.foldl_cons]
    exact ih _ _ fun e he => h e (List.mem_cons_of_mem _ he)

theorem foldl_newStep_of_no_match {c : List Nat} {l : List ClientEntry}
    (acc : Option ClientEntry) (h : ∀ e ∈ l, e.setclientid_confirm ≠ c) :
    l.foldl (newStep c) acc = acc := by
  induction l generalizing acc with
  | nil => rfl
  | cons x rest ih =>
    have hx := h x (List.mem_cons_self _ _)
    simp only [List.foldl_cons, newStep, if_neg hx]
    exact ih _ fun e he => h e (List.mem_cons_of_mem _ he)

theorem foldl_newStep_of_match {c : List Nat} {l : List ClientEntry}
    (acc : Option ClientEntry) {e : ClientEntry} (he : e ∈ l)
    (hec : e.setclientid_confirm = c)
    (huniq : ∀ f ∈ l, f.setclientid_confirm = c → f = e) :
    l.foldl (newStep c) acc = some { e with confirmed := true } := by
  induction l generalizing acc with
  | nil => exact absurd he (List.not_mem_nil e)
  | cons x rest ih =>
    by_cases hx : x.setclientid_confirm = c
    · have hxe : x = e := huniq x (List.mem_cons_self _ _) hx
      subst hxe
      simp only [List.foldl_cons, newStep, if_pos hx]
      by_cases hrest : ∃ f ∈ rest, f.setclientid_confirm = c
      · obtain ⟨f, hf, hfc⟩ := hrest
        have hfe : f = x := huniq f (List.mem_cons_of_mem _ hf) hfc
        exact ih _ (hfe ▸ hf) (fun f' hf' hfc' => huniq f' (List.mem_cons_of_mem _ hf') hfc')
      · push_neg at hrest
        exact foldl_newStep_of_no_match _ hrest
    · have hers : e ∈ rest := by
        rcases List.mem_cons.mp he with h1 | h1
        · exact absurd (h1 ▸ hec) hx
        · exact h1
      simp only [List.foldl_cons, newStep, if_neg hx]
      exact ih _ hers fun f hf hfc => huniq f (List.mem_cons_of_mem _ hf) hfc

theorem foldl_oldStep_result {c : List Nat} {l : List ClientEntry} :
    ∀ (acc : Option ClientEntry) {f : ClientEntry},
      l.foldl (oldStep c) acc = some f →
      (f ∈ l ∧ f.confirmed = true ∧ f.setclientid_confirm ≠ c) ∨ acc = some f := by
  induction l with
  | nil => intro acc f h; exact Or.inr h
  | cons x rest ih =>
    intro acc f h
    simp only [List.foldl_cons] at h
    rcases ih _ h with h1 | h1
    · exact Or.inl ⟨List.mem_cons_of_mem _ h1.1, h1.2⟩
    · unfold oldStep at h1
      by_cases hx : x.confirmed = true ∧ x.setclientid_confirm ≠ c
      · rw [if_pos hx] at h1
        obtain rfl : x = f := Option.some.inj h1
        exact Or.inl ⟨List.mem_cons_self _ _, hx⟩
      · rw [if_neg hx] at h1
        exact Or.inr h1

theorem foldl_oldStep_keep {c : List Nat} {f : ClientEntry} {l : List ClientEntry}
    (h : ∀ x ∈ l, x.confirmed = true → x.setclientid_confirm ≠ c → x = f) :
    l.foldl (oldStep c) (some f) = some f := by
  induction l with
  | nil => rfl
  | cons x rest ih
  =>
    simp only [List.foldl_cons, oldStep]
    by_cases hx : x.confirmed = true ∧ x.setclientid_confirm ≠ c
    · rw [if_pos hx, h x (List.mem_cons_self _ _) hx.1 hx.2]
      exact ih fun y hy => h y (List.mem_cons_of_mem _ hy)
    · rw [if_neg hx]
      exact ih fun y hy => h y (List.mem_cons_of_mem _ hy)

theorem foldl_oldStep_of_unique {c : List Nat} {f : ClientEntry} {l : List ClientEntry}
    (hf : f ∈ l) (hfc : f.confirmed = true) (hfd : f.setclientid_confirm ≠ c)
    (huniq : ∀ x ∈ l, x.confirmed = true → x.setclientid_confirm ≠ c → x = f) :
    l.foldl (oldStep c) none = some f := by
  induction l with
  | nil => exact absurd hf (List.not_mem_nil f)
  | cons x rest ih =>
    by_cases hx : x.confirmed = true ∧ x.setclientid_confirm ≠ c
    · have hxe : x = f := huniq x (List.mem_cons_self _ _) hx.1 hx.2
      subst hxe
      simp only [List.foldl_cons, oldStep, if_pos hx]
      exact foldl_oldStep_keep fun y hy => huniq y (List.mem_cons_of_mem _ hy)
    · have hfr : f ∈ rest := by
        rcases List.mem_cons.mp hf with h1 | h1
        · exact absurd (h1 ▸ ⟨hfc, hfd⟩) hx
        · exact h1
      simp only [List.foldl_cons, oldStep, if_neg hx]
      exact ih hfr fun y hy => huniq y (List.mem_cons_of_mem _ hy)

/-- C2 (amended).  `ConfirmClient(client_id, setclientid_confirm,
principal)` under the table invariants (cookies are a unique index; at
most one confirmed record per client id): (i) no record for `client_id`
gives `STALE_CLIENTID`; (ii) a record with a different principal gives
`CLID_INUSE` with the table unchanged; (iii) otherwise, if any record for
`client_id` — confirmed or not — has the supplied cookie, that record is
returned with its confirmed flag set, it is confirmed in the table, and
every confirmed record for `client_id` with a different cookie is
removed; (iv) if no record's cookie matches, `STALE_CLIENTID`. -/
theorem confirm_client_spec (db : List ClientEntry) (cid : Nat)
    (cookie : List Nat) (principal : Option (List Nat))
    (hnodup : ∀ f ∈ db, ∀ g ∈ db, f.setclientid_confirm = g.setclientid_confirm → f = g)
    (hone : ∀ f ∈ db.filter (fun e => e.clientid = cid),
      ∀ g ∈ db.filter (fun e => e.clientid = cid),
      f.confirmed = true → g.confirmed = true → f = g) :
    (db.filter (fun e => e.clientid = cid) = [] →
      confirm_client db cid cookie principal =
        (.error NfsStat4.nfs4errStaleClientid, db)) ∧
    ((∃ e ∈ db.filter (fun e => e.clientid = cid), e.principal ≠ principal) →
      confirm_client db cid cookie principal =
        (.error NfsStat4.nfs4errClidInuse, db)) ∧
    ((∀ e ∈ db.filter (fun e => e.clientid = cid), e.principal = principal) →
      (∀ e ∈ db.filter (fun e => e.clientid = cid),
        e.setclientid_confirm = cookie →
          (confirm_client db cid cookie principal).1 = .ok { e with confirmed := true } ∧
          { e with confirmed := true } ∈ (confirm_client db cid cookie principal).2 ∧
          (∀ f ∈ db.filter (fun e => e.clientid = cid), f.confirmed = true →
            f.setclientid_confirm ≠ cookie →
            f ∉ (confirm_client db cid cookie principal).2)) ∧
      (db.filter (fun e => e.clientid = cid) ≠ [] →
        (∀ e ∈ db.filter (fun e => e.clientid = cid), e.setclientid_confirm ≠ cookie) →
        (confirm_client db cid cookie principal).1 =
          .error NfsStat4.nfs4errStaleClientid)) := by
  refine ⟨?_, ?_, ?_⟩
  · intro hE
    simp [confirm_client, hE]
  · rintro ⟨e, he, hep⟩
    have hne : db.filter (fun e => e.clientid = cid) ≠ [] := by
      intro h; rw [h] at he; exact List.not_mem_nil e he
    have hEmpty : (db.filter (fun e => e.clientid = cid)).isEmpty = false := by
      cases hfE : db.filter (fun e => e.clientid = cid) with
      | nil => exact absurd hfE hne
      | cons a l => rfl
    simp only [confirm_client, hEmpty, Bool.false_eq_true, if_false]
    rw [confirmLoop_error_of_mismatch none none ⟨e, he, hep⟩]
  · intro hprin
    constructor
    · intro e he hec
      have hne : db.filter (fun e => e.clientid = cid) ≠ [] := by
        intro h; rw [h] at he; exact List.not_mem_nil e he
      have hEmpty : (db.filter (fun e => e.clientid = cid)).isEmpty = false := by
        cases hfE : db.filter (fun e => e.clientid = cid) with
        | nil => exact absurd hfE hne
        | cons a l => rfl
      have huniq : ∀ f ∈ db.filter (fun e => e.clientid = cid),
          f.setclientid_confirm = cookie → f = e := by
        intro f hf hfc
        exact hnodup f (List.mem_of_mem_filter hf) e (List.mem_of_mem_filter he)
          (hfc.trans hec.symm)
      have hnew : (db.filter (fun e => e.clientid = cid)).foldl (newStep cookie) none =
          some { e with confirmed := true } :=
        foldl_newStep_of_match none he hec huniq
      -- the modified record is present in any table that holds `e`
      have hmain : ∀ db1 : List ClientEntry, e ∈ db1 →
          { e with confirmed := true } ∈ confirmByCookie db1 e.setclientid_confirm := by
        intro db1 he1
        unfold confirmByCookie
        exact List.mem_map.mpr ⟨e, he1, by rw [if_pos rfl]⟩
      rcases hold : (db.filter (fun e => e.clientid = cid)).foldl (oldStep cookie) none with
        _ | f
      · have hcc : confirm_client db cid cookie principal =
            (.ok { e with confirmed := true }, confirmByCookie db e.setclientid_confirm) := by
          simp only [confirm_client, hEmpty, Bool.false_eq_true, if_false,
            confirmLoop_ok_of_match none none hprin, hnew, hold]
        refine ⟨by rw [hcc], by rw [hcc]; exact hmain db (List.mem_of_mem_filter he), ?_⟩
        intro f hf hfc hfd
        -- with at most one confirmed record, a confirmed record with a
        -- different cookie forces the old-confirmed accumulator to be set
        have : (db.filter (fun e => e.clientid = cid)).foldl (oldStep cookie) none = some f :=
          foldl_oldStep_of_unique hf hfc hfd fun x hx hxc hxd =>
            hone x hx f hf hxc hfc
        rw [hold] at this
        exact absurd this (by simp)
      · have hfprop : f.confirmed = true ∧ f.setclientid_confirm ≠ cookie := by
          rcases foldl_oldStep_result none hold with h1 | h1
          · exact h1.2
          · exact absurd h1 (by simp)
        have hfmem : f ∈ db.filter (fun e => e.clientid = cid) := by
          rcases foldl_oldStep_result none hold with h1 | h1
          · exact h1.1
          · exact absurd h1 (by simp)
        have hed : e.setclientid_confirm ≠ f.setclientid_confirm := by
          rw [hec]; exact fun h => hfprop.2 h.symm
        have he1 : e ∈ removeByCookie db f.setclientid_confirm := by
          unfold removeByCookie
          exact List.mem_filter.mpr ⟨List.mem_of_mem_filter he, by simpa using hed⟩
        have hcc : confirm_client db cid cookie principal =
            (.ok { e with confirmed := true },
              confirmByCookie (removeByCookie db f.setclientid_confirm)
                e.setclientid_confirm) := by
          simp only [confirm_client, hEmpty, Bool.false_eq_true, if_false,
            confirmLoop_ok_of_match none none hprin, hnew, hold]
        refine ⟨by rw [hcc], by rw [hcc]; exact hmain _ he1, ?_⟩
        intro g hg hgc hgd
        have hgf : g = f := hone g hg f hfmem hgc hfprop.1
        subst hgf
        rw [hcc]
        intro hmem
        unfold confirmByCookie at hmem
        rcases List.mem_map.mp hmem with ⟨y, hy, hyeq⟩
        by_cases hyc : y.setclientid_confirm = e.setclientid_confirm
        · rw [if_pos hyc] at hyeq
          have : g.setclientid_confirm = e.setclientid_confirm := by rw [← hyeq]; exact hyc
          exact hgd (this.trans hec)
        · rw [if_neg hyc] at hyeq
          subst hyeq
          have : y ∉ removeByCookie db y.setclientid_confirm := by
            unfold removeByCookie
            intro hmem2
            have := (List.mem_filter.mp hmem2).2
            simp at this
          exact this hy
    · intro hne hnomatch
      have hEmpty : (db.filter (fun e => e.clientid = cid)).isEmpty = false := by
        cases hfE : db.filter (fun e => e.clientid = cid) with
        | nil => exact absurd hfE hne
        | cons a l => rfl
      have hnewNone : (db.filter (fun e => e.clientid = cid)).foldl (newStep cookie) none =
          none := foldl_newStep_of_no_match none hnomatch
      simp only [confirm_client, hEmpty, Bool.false_eq_true, if_false,
        confirmLoop_ok_of_match none none hprin, hnewNone]

deriving instance DecidableEq for Except

/-- The single, already-confirmed client record of the C2
counterexample. -/
def c2old : ClientEntry :=
  { principal := none, verifier := [0, 0, 0, 0, 0, 0, 0, 0], id := [116],
    clientid := 1, callback := ⟨0, [116, 99, 112], [], 0⟩,
    setclientid_confirm := [1, 2, 3, 4, 5, 6, 7, 8], confirmed := true }

/-- C2 counterexample: with a single record that is already confirmed and
whose cookie matches, the code returns the record (re-confirmed) with
`Ok`, whereas the claim — which lets only an *unconfirmed* record's
cookie match — predicts `STALE_CLIENTID` (this is also the behaviour the
repository's own `test_upsert_clients_double_confirm` test asserts). -/
theorem confirm_client_counterexample :
    c2old.confirmed = true ∧
    (confirm_client [c2old] 1 [1, 2, 3, 4, 5, 6, 7, 8] none).1 =
      .ok { c2old with confirmed := true } := by
  decide

/-- The unconfirmed record used by the C2 witness. -/
def c2new : ClientEntry :=
  { principal := none, verifier := [0, 0, 0, 0, 0, 0, 0, 0], id := [116],
    clientid := 1, callback := ⟨0, [116, 99, 112], [], 0⟩,
    setclientid_confirm := [9, 9, 9, 9, 9, 9, 9, 9], confirmed := false }

/-- Witness for C2 at a concrete table: one stale confirmed record and
one unconfirmed record whose cookie is supplied; the unconfirmed record
is returned confirmed and the stale confirmed record is removed. -/
theorem confirm_client_spec_witness :
    (confirm_client [c2old, c2new] 1 [9, 9, 9, 9, 9, 9, 9, 9] none).1 =
      .ok { c2new with confirmed := true } ∧
    c2old ∉ (confirm_client [c2old, c2new] 1 [9, 9, 9, 9, 9, 9, 9, 9] none).2 := by
  have h := confirm_client_spec [c2old, c2new] 1 [9, 9, 9, 9, 9, 9, 9, 9] none
    (by decide) (by decide)
  have h3 := (h.2.2 (by decide)).1 c2new (by decide) (by decide)
  exact ⟨h3.1, h3.2.2 c2old (by decide) (by decide) (by decide)⟩

/-! ## RPC record-marking decoder (src/src/proto/mod.rs, `NFSProtoCodec::decode`)

The byte stream is a `List Nat`.  Bit operations of the source on the
`u32` fragment header are expressed with `/` and `%` by powers of two:
`header & (1 << 31) > 0` is `header / 2 ^ 31 % 2 = 1` and
`header & ((1 << 31) - 1)` is `header % 2 ^ 31` for `header < 2 ^ 32`. -/

/-- The frame-size cap `MAX` (8 MiB), src/src/proto/mod.rs. -/
def MAX : Nat := 8 * 1024 * 1024

/-- `u32::from_be_bytes` on four byte values. -/
def u32be (b0 b1 b2 b3 : Nat) : Nat := ((b0 * 256 + b1) * 256 + b2) * 256 + b3

/-- Decoder outcome: `needMore` models `Ok(None)` (wait for more bytes),
`tooLarge` the `InvalidData` error for an oversized fragment, `done`
models `Ok(Some(..))` carrying the accumulated `message_data` that is
handed to `RpcCallMsg::from_bytes`. -/
inductive DecodeResult where
  | needMore
  | tooLarge (length : Nat)
  | done (message_data : List Nat)
  deriving DecidableEq, Repr

/-- The `while !is_last` fragment loop of `NFSProtoCodec::decode`: read a
4-byte big-endian header; error out if the fragment length exceeds
`MAX`; wait if the fragment has not fully arrived; otherwise append the
fragment to `message_data` and continue unless the last-fragment bit is
set. -/
def decodeLoop (src : List Nat) (message_data : List Nat) : DecodeResult :=
  match src with
  | b0 :: b1 :: b2 :: b3 :: rest =>
    let fragment_header := u32be b0 b1 b2 b3
    let is_last := fragment_header / 2 ^ 31 % 2 = 1
    let length := fragment_header % 2 ^ 31
    if length > MAX then .tooLarge length
    else if rest.length < length then .needMore
    else
      let fragment := rest.take length
      if is_last then .done (message_data ++ fragment)
      else decodeLoop (rest.drop length) (message_data ++ fragment)
  | _ => .needMore
  termination_by src.length
  decreasing_by simp; omega

/-- `NFSProtoCodec::decode` up to the accumulated message bytes:
`message_data` starts empty. -/
def decode (src : List Nat) : DecodeResult := decodeLoop src []

/-- Big-endian 4-byte encoding of a `u32` (the fragment header as the
peer sends it). -/
def be32 (n : Nat) : List Nat :=
  [n / 2 ^ 24 % 256, n / 2 ^ 16 % 256, n / 2 ^ 8 % 256, n % 256]

/-- A wire fragment: a 4-byte header whose top bit marks the last
fragment and whose low 31 bits give the payload length, then the
payload (RFC 1057 record marking). -/
def serializeFrag (is_last : Bool) (payload : List Nat) : List Nat :=
  be32 ((if is_last then 2 ^ 31 else 0) + payload.length) ++ payload

/-- A full record-marked message: any number of non-final fragments
followed by one final fragment. -/
def serializeFrags (frags : List (List Nat)) (lastFrag : List Nat) : List Nat :=
  (frags.map (serializeFrag false)).flatten ++ serializeFrag true lastFrag

theorem u32be_be32 {n : Nat} (h : n < 2 ^ 32) :
    u32be (n / 2 ^ 24 % 256) (n / 2 ^ 16 % 256) (n / 2 ^ 8 % 256) (n % 256) = n := by
  unfold u32be
  omega

theorem decodeLoop_frag (is_last : Bool) (payload rest acc : List Nat)
    (hlen : payload.length ≤ MAX) :
    decodeLoop (serializeFrag is_last payload ++ rest) acc =
      if is_last then .done (acc ++ payload)
      else decodeLoop rest (acc ++ payload) := by
  have hM : MAX = 8388608 := by norm_num [MAX]
  have hlt : (if is_last then 2 ^ 31 else 0) + payload.length < 2 ^ 32 := by
    cases is_last <;> simp <;> omega
  simp only [serializeFrag, be32, List.cons_append, List.nil_append]
  rw [decodeLoop]
  rw [u32be_be32 hlt]
  have hmod : ((if is_last then 2 ^ 31 else 0) + payload.length) % 2 ^ 31 =
      payload.length := by
    cases is_last <;> simp <;> omega
  have hdiv : ((if is_last then 2 ^ 31 else 0) + payload.length) / 2 ^ 31 % 2 =
      if is_last then 1 else 0 := by
    cases is_last <;> simp <;> omega
  rw [hmod, hdiv]
  rw [if_neg (by omega : ¬ payload.length > MAX)]
  rw [if_neg (by simp : ¬ (payload ++ rest).length < payload.length)]
  have htake : (payload ++ rest).take payload.length = payload := List.take_left _ _
  have hdrop : (payload ++ rest).drop payload.length = rest := List.drop_left _ _
  rw [htake, hdrop]
  cases is_last <;> simp

theorem decodeLoop_frag_too_large (is_last : Bool) (payload rest acc : List Nat)
    (h1 : MAX < payload.length) (h2 : payload.length < 2 ^ 31) :
    decodeLoop (serializeFrag is_last payload ++ rest) acc =
      .tooLarge payload.length := by
  have hlt : (if is_last then 2 ^ 31 else 0) + payload.length < 2 ^ 32 := by
    cases is_last <;> simp <;> omega
  simp only [serializeFrag, be32, List.cons_append, List.nil_append]
  rw [decodeLoop]
  rw [u32be_be32 hlt]
  have hmod : ((if is_last then 2 ^ 31 else 0) + payload.length) % 2 ^ 31 =
      payload.length := by
    cases is_last <;> simp <;> omega
  rw [hmod]
  rw [if_pos (by omega : payload.length > MAX)]

theorem decodeLoop_nonfinal_frags (pre : List (List Nat)) (rest acc : List Nat)
    (h : ∀ p ∈ pre, p.length ≤ MAX) :
    decodeLoop ((pre.map (serializeFrag false)).flatten ++ rest) acc =
      decodeLoop rest (acc ++ pre.flatten) := by
  induction pre generalizing acc with
  | nil => simp
  | cons p ps ih =>
    simp only [List.map_cons, List.flatten_cons, List.append_assoc]
    rw [decodeLoop_frag false p _ acc (h p (List.mem_cons_self _ _))]
    rw [ih _ fun q hq => h q (List.mem_cons_of_mem _ hq)]
    simp

/-- C3 (amended).  The record-marking decoder's 8 MiB cap is enforced per
fragment, not on the accumulated message: (i) a message all of whose
fragments have payloads of at most `MAX` bytes decodes to the
concatenation of the payloads — whatever the accumulated size — and
(ii) a fragment whose length field exceeds `MAX` is rejected with the
invalid-data error before decoding, with the preceding fragments
consumed. -/
theorem decode_fragment_cap :
    (∀ (frags : List (List Nat)) (lastFrag : List Nat),
      (∀ p ∈ frags, p.length ≤ MAX) → lastFrag.length ≤ MAX →
      decode (serializeFrags frags lastFrag) = .done (frags.flatten ++ lastFrag)) ∧
    (∀ (pre : List (List Nat)) (f rest : List Nat) (is_last : Bool),
      (∀ p ∈ pre, p.length ≤ MAX) →
      MAX < f.length → f.length < 2 ^ 31 →
      decode ((pre.map (serializeFrag false)).flatten ++ serializeFrag is_last f ++ rest) =
        .tooLarge f.length) := by
  constructor
  · intro frags lastFrag hfr hlast
    unfold decode serializeFrags
    rw [decodeLoop_nonfinal_frags frags _ [] hfr]
    have := decodeLoop_frag true lastFrag [] ([] ++ frags.join) hlast
    rw [List.append_nil] at this
    rw [this]
    simp
  · intro pre f rest is_last hpre h1 h2
    unfold decode
    rw [List.append_assoc]
    rw [decodeLoop_nonfinal_frags pre _ [] hpre]
    exact decodeLoop_frag_too_large is_last f rest _ h1 h2

/-- C3 counterexample: a message of two fragments of exactly `MAX` bytes
each — accumulated size `2 * MAX`, exceeding the 8 MiB cap — is *not*
rejected: it decodes to the full 16 MiB message, where the claim
requires an invalid-data error. -/
theorem decode_counterexample_c3 :
    decode (serializeFrags [List.replicate MAX 0] (List.replicate MAX 0)) =
      .done (List.replicate MAX 0 ++ List.replicate MAX 0) ∧
    MAX < (List.replicate MAX (0 : Nat) ++ List.replicate MAX 0).length := by
  constructor
  · unfold decode serializeFrags
    simp only [List.map_cons, List.map_nil, List.flatten_cons, List.flatten_nil,
      List.append_nil]
    rw [decodeLoop_frag false (List.replicate MAX 0) _ []
      (List.length_replicate _ _).le]
    rw [← List.append_nil (serializeFrag true (List.replicate MAX 0))]
    rw [decodeLoop_frag true (List.replicate MAX 0) [] _
      (List.length_replicate _ _).le]
    simp
  · rw [List.length_append, List.length_replicate]
    have : 0 < MAX := by norm_num [MAX]
    omega

/-- Witness for C3 at a concrete message: two non-final fragments and a
final one, each within the cap, decode to the joined payloads; an
oversized fragment after a small one is rejected with its length. -/
theorem decode_fragment_cap_witness :
    decode (serializeFrags [[1], [2, 3]] [4]) = .done [1, 2, 3, 4] ∧
    decode ((([[5]].map (serializeFrag false)).flatten ++
      serializeFrag true (List.replicate (MAX + 1) 9) ++ [])) =
      .tooLarge (MAX + 1) := by
  constructor
  · have h := decode_fragment_cap.1 [[1], [2, 3]] [4]
      (by intro p hp; fin_cases hp <;> norm_num [MAX]) (by norm_num [MAX])
    simpa using h
  · have h := decode_fragment_cap.2 [[5]] (List.replicate (MAX + 1) 9) [] true
      (by intro p hp; fin_cases hp; norm_num [MAX])
      (by rw [List.length_replicate]; omega)
      (by rw [List.length_replicate]; norm_num [MAX])
    simpa using h

/-! ## File manager (src/lib/src/server/filemanager/mod.rs)

Filehandle records are modelled by their two indexed attributes (the
opaque `id` and the canonical `path`); the table (`FilehandleDb`, a
multi-index map with `id` and `path` as unique hashed indices) is a list
in insertion order, lookups are `find?` and `insert` appends.
`VfsPath::exists` is an oracle `ex : path → Bool`.  Paths are byte
strings (`List Nat`; `[47]` is "/"). -/

/-- The indexed part of a `Filehandle`
(bold-lib/src/server/filemanager/filehandle.rs): opaque `id` and
canonical `path` (`Filehandle::new` normalises "" to "/"). -/
structure FhEntry where
  id : List Nat
  path : List Nat
  deriving DecidableEq, Repr

/-- The file-manager state touched by the filehandle-id logic: the
filehandle table, the `next_fh_id` counter and `boot_time`. -/
structure FMState where
  fhdb : List FhEntry
  next_fh_id : Nat
  boot_time : Nat
  deriving DecidableEq, Repr

/-- Path normalisation as in `get_filehandle_id` / `Filehandle::new`:
an empty path is the root "/". -/
def normPath (p : List Nat) : List Nat := if p = [] then [47] else p

/-- Big-endian `u64::to_be_bytes`. -/
def be64 (n : Nat) : List Nat :=
  [n / 2 ^ 56 % 256, n / 2 ^ 48 % 256, n / 2 ^ 40 % 256, n / 2 ^ 32 % 256,
    n / 2 ^ 24 % 256, n / 2 ^ 16 % 256, n / 2 ^ 8 % 256, n % 256]

/-- The id `get_filehandle_id` mints for a non-root path:
`{0x80} || boot_time_be64 || seq_be64 || {0x01}`. -/
def mintedId (s : FMState) : List Nat :=
  128 :: (be64 s.boot_time ++ (be64 s.next_fh_id ++ [1]))

/-- `FileManager::get_filehandle_by_path` (`fhdb.get_by_path`). -/
def get_filehandle_by_path (s : FMState) (path : List Nat) : Option FhEntry :=
  s.fhdb.find? fun e => e.path = path

/-- `FileManager::get_filehandle_id`: reuse the id already cached for the
path; the root keeps the constant id `{0x80}`; any other path gets
`{0x80} || boot_time_be64 || next_fh_id_be64 || {0x01}` and the counter
advances. -/
def get_filehandle_id (s : FMState) (file : List Nat) : List Nat × FMState :=
  let path := normPath file
  match get_filehandle_by_path s path with
  | some e => (e.id, s)
  | none =>
    if path = [47] then ([128], s)
    else (mintedId s, { s with next_fh_id := s.next_fh_id + 1 })

/-- `FileManager::get_filehandle_by_id`: look up by id; a hit whose
backing VFS object no longer exists is evicted as stale and reported
absent. -/
def get_filehandle_by_id (s : FMState) (ex : List Nat → Bool) (id : List Nat) :
    Option FhEntry × FMState :=
  match s.fhdb.find? fun e => e.id = id with
  | some fh =>
    if ex fh.path then (some fh, s)
    else (none, { s with fhdb := s.fhdb.filter fun e => e.id ≠ id })
  | none => (none, s)

/-- `FileManager::get_filehandle`: derive the id, return the stored
record if still live, else build a fresh record (`Filehandle::new` with
the normalised path) and append it to the table. -/
def get_filehandle (s : FMState) (ex : List Nat → Bool) (file : List Nat) :
    FhEntry × FMState :=
  let (id, s1) := get_filehandle_id s file
  match get_filehandle_by_id s1 ex id with
  | (some fh, s2) => (fh, s2)
  | (none, s2) =>
    let fh : FhEntry := { id := id, path := normPath file }
    (fh, { s2 with fhdb := s2.fhdb ++ [fh] })

theorem find?_append_of_none {α : Type} {p : α → Bool} {l1 : List α} (l2 : List α)
    (h : l1.find? p = none) : (l1 ++ l2).find? p = l2.find? p := by
  induction l1 with
  | nil => rfl
  | cons x rest ih =>
    cases hp : p x with
    | true =>
      rw [List.find?_cons_of_pos _ hp] at h
      exact absurd h (by simp)
    | false =>
      rw [List.find?_cons_of_neg _ (by simp [hp])] at h
      rw [List.cons_append, List.find?_cons_of_neg _ (by simp [hp])]
      exact ih h

/-- `get_filehandle` always hands back the id computed by
`get_filehandle_id` (either the stored record with this id or the fresh
record built around it). -/
theorem get_filehandle_id_eq (s : FMState) (ex : List Nat → Bool) (file : List Nat) :
    ((get_filehandle s ex file).1).id = (get_filehandle_id s file).1 := by
  unfold get_filehandle
  rcases hid : get_filehandle_id s file with ⟨id, s1⟩
  unfold get_filehandle_by_id
  rcases hfind : s1.fhdb.find? fun e => e.id = id with _ | fh
  · simp [hfind]
  · have hfh : fh.id = id := by simpa using List.find?_some hfind
    cases hex : ex fh.path <;> simp [hfind, hex, hfh]

/-- After a `get_filehandle` call for a live path, a second
`get_filehandle_id` on the resulting state yields the same id.  The
hypotheses are table invariants of reachable file-manager states: ids
are a unique index, the constant root id belongs only to the root path,
and the id about to be minted is fresh. -/
theorem get_filehandle_id_stable (s : FMState) (ex : List Nat → Bool) (p : List Nat)
    (hex : ex (normPath p) = true)
    (hids : (s.fhdb.map FhEntry.id).Nodup)
    (hroot2 : ∀ e ∈ s.fhdb, e.id = [128] → e.path = [47])
    (hfresh : ∀ e ∈ s.fhdb, e.id ≠ mintedId s) :
    (get_filehandle_id ((get_filehandle s ex p).2) p).1 =
      (get_filehandle_id s p).1 := by
  rcases hpath : get_filehandle_by_path s (normPath p) with _ | e
  · by_cases hnp : normPath p = [47]
    · -- root path, not yet cached by path
      have hid1 : get_filehandle_id s p = ([128], s) := by
        simp only [get_filehandle_id]
        rw [hpath, if_pos hnp]
      rcases hf : s.fhdb.find? (fun x => x.id = [128]) with _ | fh
      · -- no record with the root id either: a fresh root record is appended
        have hstate : (get_filehandle s ex p).2 =
            { s with fhdb := s.fhdb ++ [⟨[128], normPath p⟩] } := by
          simp [get_filehandle, hid1, get_filehandle_by_id, hf]
        have hfind2 : get_filehandle_by_path
            { s with fhdb := s.fhdb ++ [⟨[128], normPath p⟩] } (normPath p) =
            some ⟨[128], normPath p⟩ := by
          unfold get_filehandle_by_path at hpath ⊢
          rw [find?_append_of_none _ hpath]
          simp
        rw [hstate]
        simp only [get_filehandle_id]
        rw [hfind2, hpath]
        simp [hnp]
      · -- a record with the root id exists: it is the live root record
        have hfhid : fh.id = [128] := by simpa using List.find?_some hf
        have hfp : fh.path = [47] := hroot2 fh (List.mem_of_find?_eq_some hf) hfhid
        have hexf : ex fh.path = true := by rw [hfp, ← hnp]; exact hex
        have hstate : (get_filehandle s ex p).2 = s := by
          simp [get_filehandle, hid1, get_filehandle_by_id, hf, hexf]
        rw [hstate]
    · -- non-root path: a fresh id is minted and the new record appended
      have hid1 : get_filehandle_id s p =
          (mintedId s, { s with next_fh_id := s.next_fh_id + 1 }) := by
        simp only [get_filehandle_id]
        rw [hpath, if_neg hnp]
      have hf : (({ s with next_fh_id := s.next_fh_id + 1 } : FMState)).fhdb.find?
          (fun x => x.id = mintedId s) = none := by
        apply List.find?_eq_none.mpr
        intro x hx
        simpa using hfresh x hx
      have hstate : (get_filehandle s ex p).2 =
          { s with fhdb := s.fhdb ++ [⟨mintedId s, normPath p⟩],
                   next_fh_id := s.next_fh_id + 1 } := by
        simp [get_filehandle, hid1, get_filehandle_by_id, hf]
      have hfind2 : get_filehandle_by_path
          { s with fhdb := s.fhdb ++ [⟨mintedId s, normPath p⟩],
                   next_fh_id := s.next_fh_id + 1 } (normPath p) =
          some ⟨mintedId s, normPath p⟩ := by
        unfold get_filehandle_by_path at hpath ⊢
        rw [find?_append_of_none _ hpath]
        simp
      rw [hstate, hid1]
      simp only [get_filehandle_id]
      rw [hfind2]
  · -- the path is cached: its id is reused and the state is unchanged
    have he : e ∈ s.fhdb := List.mem_of_find?_eq_some hpath
    have hep : e.path = normPath p := by simpa using List.find?_some hpath
    have hid1 : get_filehandle_id s p = (e.id, s) := by
      simp only [get_filehandle_id]
      rw [hpath]
    have hfind : s.fhdb.find? (fun x => x.id = e.id) = some e := by
      rcases hf : s.fhdb.find? (fun x => x.id = e.id) with _ | fh
      · have := List.find?_eq_none.mp hf e he
        simp at this
      · have hfh : fh.id = e.id := by simpa using List.find?_some hf
        have hmem : fh ∈ s.fhdb := List.mem_of_find?_eq_some hf
        rw [hf, List.inj_on_of_nodup_map hids hmem he hfh]
    have hexe : ex e.path = true := by rw [hep]; exact hex
    have hstate : (get_filehandle s ex p).2 = s := by
      simp [get_filehandle, hid1, get_filehandle_by_id, hfind, hexe]
    rw [hstate]

/-- C4.  Filehandle ids, under the table invariants of reachable
file-manager states (unique id index, the constant root id only on the
root record, freshness of the next minted id): (i) the root path "/"
(and its alias "", normalised by `Filehandle::new`) always resolves to
the single-byte id `{0x80}`; (ii) a fresh non-root path is assigned
`{0x80} || boot_time_be64 || seq_be64 || {0x01}` with `seq` taken from
the counter, which advances; (iii) resolving the same live path twice
returns the identical id rather than minting a new one. -/
theorem filehandle_id_spec (s : FMState) (ex : List Nat → Bool) (p : List Nat)
    (hroot1 : ∀ e ∈ s.fhdb, e.path = [47] → e.id = [128])
    (hroot2 : ∀ e ∈ s.fhdb, e.id = [128] → e.path = [47])
    (hids : (s.fhdb.map FhEntry.id).Nodup)
    (hfresh : ∀ e ∈ s.fhdb, e.id ≠ mintedId s) :
    ((get_filehandle_id s [47]).1 = [128] ∧ (get_filehandle_id s []).1 = [128]) ∧
    (normPath p ≠ [47] → get_filehandle_by_path s (normPath p) = none →
      get_filehandle_id s p =
        (128 :: (be64 s.boot_time ++ (be64 s.next_fh_id ++ [1])),
          { s with next_fh_id := s.next_fh_id + 1 })) ∧
    (ex (normPath p) = true →
      ((get_filehandle s ex p).1).id =
        ((get_filehandle ((get_filehandle s ex p).2) ex p).1).id) := by
  have hroot : ∀ q : List Nat, normPath q = [47] → (get_filehandle_id s q).1 = [128] := by
    intro q hq
    simp only [get_filehandle_id]
    rw [hq]
    rcases hpath : get_filehandle_by_path s [47] with _ | e
    · rw [if_pos rfl]
    · have hep : e.path = [47] := by simpa using List.find?_some hpath
      exact hroot1 e (List.mem_of_find?_eq_some hpath) hep
  refine ⟨⟨hroot [47] rfl, hroot [] rfl⟩, ?_, ?_⟩
  · intro hnp hpath
    simp only [get_filehandle_id]
    rw [hpath, if_neg hnp]
    rfl
  · intro hex
    rw [get_filehandle_id_eq, get_filehandle_id_eq]
    exact (get_filehandle_id_stable s ex p hex hids hroot2 hfresh).symm

/-- Witness for C4 at a concrete file manager: table holding only the
root record, boot time 7, counter 100, every path live; the root keeps
id `{0x80}`, the fresh path `[97]` gets the structured id with `seq =
100`, and resolving `[97]` twice yields the same id. -/
theorem filehandle_id_spec_witness :
    (get_filehandle_id ⟨[⟨[128], [47]⟩], 100, 7⟩ [47]).1 = [128] ∧
    get_filehandle_id ⟨[⟨[128], [47]⟩], 100, 7⟩ [97] =
      (128 :: (be64 7 ++ (be64 100 ++ [1])), ⟨[⟨[128], [47]⟩], 101, 7⟩) ∧
    ((get_filehandle ⟨[⟨[128], [47]⟩], 100, 7⟩ (fun _ => true) [97]).1).id =
      ((get_filehandle ((get_filehandle ⟨[⟨[128], [47]⟩], 100, 7⟩
        (fun _ => true) [97]).2) (fun _ => true) [97]).1).id := by
  have h := filehandle_id_spec ⟨[⟨[128], [47]⟩], 100, 7⟩ (fun _ => true) [97]
    (by decide) (by decide) (by decide) (by decide)
  exact ⟨h.1.1, h.2.1 (by decide) (by decide), h.2.2 rfl⟩

/-! ## READDIR (bold-lib/src/server/nfs40/op_readdir.rs, `Readdir4args::execute`)

File names are byte strings (`List Nat`), so `name.len()` and
`seed.as_bytes()` agree with the list representation.  In the modelled
environment the per-entry filehandle and attribute fetches succeed, so a
reply entry is the pair of its cookie and its name. -/

/-- `Iterator::step_by(s)` over a byte string: the elements at indices
`0, s, 2s, …` (the source always calls it with `s ≥ 1`). -/
def stepBy (s : Nat) (l : List Nat) : List Nat :=
  l.enum.filterMap fun p => if p.1 % s = 0 then some p.2 else none

/-- The cookie-verifier sample of `Readdir4args::execute`: concatenate
all child names (`seed`) and take every `(seed.len() / 8 + 1)`-th
byte. -/
def cookieverfSample (fnames : List (List Nat)) : List Nat :=
  stepBy (fnames.flatten.length / 8 + 1) fnames.flatten

/-- The padding step that turns the sample into the reply's 8-byte
verifier: an empty sample becomes eight zero bytes, a shorter one is
zero-padded to length 8. -/
def cookieverfPad (sample : List Nat) : List Nat :=
  if sample = [] then List.replicate 8 0
  else sample ++ List.replicate (8 - sample.length) 0

/-- The `for (i, entry) in dir.enumerate()` selection loop of
`Readdir4args::execute`: for entries at or above the cookie, advance
`dircount_actual` (`d`) by `8 + name.len() + 5` and `maxcount_actual`
(`m`) by 200 *before* the budget check, then keep the entry with cookie
`i + 3` if `dircount == 0 || (dircount > d' && maxcount > m')`. -/
def readdirSelectGo (cookie dircount maxcount : Nat) :
    List (Nat × List Nat) → Nat → Nat → List (Nat × List Nat) → List (Nat × List Nat)
  | [], _, _, acc => acc
  | (i, name) :: rest, d, m, acc =>
    if i + 2 ≥ cookie then
      let d' := d + 8 + name.length + 5
      let m' := m + 200
      if dircount = 0 ∨ (dircount > d' ∧ maxcount > m') then
        readdirSelectGo cookie dircount maxcount rest d' m' (acc ++ [(i + 3, name)])
      else readdirSelectGo cookie dircount maxcount rest d' m' acc
    else readdirSelectGo cookie dircount maxcount rest d m acc

/-- The selected `(cookie, filehandle)` list of `Readdir4args::execute`
(`dircount_actual` starts at 0, `maxcount_actual` at 128). -/
def readdirSelect (fnames : List (List Nat)) (cookie dircount maxcount : Nat) :
    List (Nat × List Nat) :=
  readdirSelectGo cookie dircount maxcount fnames.enum 0 128 []

/-- `Entry4` of the reply: name, cookie, `nextentry` link. -/
inductive Entry4 where
  | mk (name : List Nat) (cookie : Nat) (nextentry : Option Entry4)

/-- The chain-building loop of `Readdir4args::execute`: iterate the
selected entries in reverse; each new entry points at the previous
head. -/
def buildChain (selected : List (Nat × List Nat)) : Option Entry4 :=
  selected.reverse.foldl (fun tnext p => some (.mk p.2 p.1 tnext)) none

/-- The entry chain that lists `(cookie, name)` pairs in order. -/
def chainOf : List (Nat × List Nat) → Option Entry4
  | [] => none
  | (c, n) :: rest => some (.mk n c (chainOf rest))

/-- The reply chain built by the reverse loop is the in-order chain of
the selected entries: the reply's linked list enumerates the selected
`(cookie, name)` pairs in directory order. -/
theorem buildChain_eq_chainOf (l : List (Nat × List Nat)) :
    buildChain l = chainOf l := by
  induction l with
  | nil => rfl
  | cons x xs ih =>
    unfold buildChain at ih ⊢
    rw [List.reverse_cons, List.foldl_append]
    simp only [List.foldl_cons, List.foldl_nil]
    rw [ih, chainOf]

/-- The reply-relevant outcome of `Readdir4args::execute`:
`NFS4ERR_NOT_SAME`, or the reply with `eof` and the verifier.  The
entry chain of the reply is `buildChain entries`
(`buildChain_eq_chainOf`); the outcome carries the flat entry list. -/
inductive ReaddirResult where
  | notSame
  | ok (entries : List (Nat × List Nat)) (eof : Bool) (cookieverf : List Nat)
  deriving DecidableEq, Repr

/-- The entry list of a READDIR outcome. -/
def ReaddirResult.entryList : ReaddirResult → List (Nat × List Nat)
  | .notSame => []
  | .ok e _ _ => e

/-- The verifier of a successful READDIR outcome. -/
def ReaddirResult.verf : ReaddirResult → Option (List Nat)
  | .notSame => none
  | .ok _ _ v => some v

/-- `Readdir4args::execute` on a directory listing `fnames`: select the
entries, compare the *un-padded* verifier sample against the supplied
8-byte `cookieverf` when `cookie ≠ 0`, then pad the sample for the
reply, and compute `eof` from the first entry's cookie
(`tnextentry.cookie`) and the entry count. -/
def readdir_execute (fnames : List (List Nat)) (cookie : Nat)
    (cookieverfArg : List Nat) (dircount maxcount : Nat) : ReaddirResult :=
  let selected := readdirSelect fnames cookie dircount maxcount
  let sample := cookieverfSample fnames
  if cookie ≠ 0 ∧ sample ≠ cookieverfArg then .notSame
  else
    let eof :=
      match selected with
      | (c, _) :: _ => decide (c + selected.length ≥ fnames.length)
      | [] => true
    .ok selected eof (cookieverfPad sample)

theorem readdirSelectGo_unlimited (cookie maxcount : Nat) (l : List (Nat × List Nat)) :
    ∀ d m acc, readdirSelectGo cookie 0 maxcount l d m acc =
      acc ++ l.filterMap fun p =>
        if p.1 + 2 ≥ cookie then some (p.1 + 3, p.2) else none := by
  induction l with
  | nil => intro d m acc; simp [readdirSelectGo]
  | cons x rest ih =>
    intro d m acc
    obtain ⟨i, name⟩ := x
    by_cases hc : i + 2 ≥ cookie
    · simp only [readdirSelectGo, if_pos hc]
      rw [if_pos (Or.inl (by trivial))]
      rw [ih]
      simp [hc]
    · simp only [readdirSelectGo, if_neg hc]
      rw [ih]
      simp [hc]

/-- C6 (amended).  READDIR entry selection with an unlimited `dircount`
budget: the reply's entries are, in directory order, exactly the
directory entries at indices `i` with `(i + 2) ≥ cookie`, carrying
cookie `i + 3` — so cookies start at 3 (0, 1, 2 reserved) and an entry
with cookie value `c` is emitted if and only if `c` is *strictly
greater* than the supplied cookie argument; the reply chain links them
in this order. -/
theorem readdir_cookie_spec (fnames : List (List Nat)) (cookie maxcount : Nat) :
    readdirSelect fnames cookie 0 maxcount =
      fnames.enum.filterMap (fun p =>
        if p.1 + 2 ≥ cookie then some (p.1 + 3, p.2) else none) ∧
    (∀ p ∈ readdirSelect fnames cookie 0 maxcount, 3 ≤ p.1 ∧ cookie < p.1) ∧
    buildChain (readdirSelect fnames cookie 0 maxcount) =
      chainOf (readdirSelect fnames cookie 0 maxcount) := by
  refine ⟨readdirSelectGo_unlimited cookie maxcount fnames.enum 0 128 [], ?_,
    buildChain_eq_chainOf _⟩
  intro p hp
  have heq : readdirSelect fnames cookie 0 maxcount =
      fnames.enum.filterMap (fun p =>
        if p.1 + 2 ≥ cookie then some (p.1 + 3, p.2) else none) :=
    readdirSelectGo_unlimited cookie maxcount fnames.enum 0 128 []
  rw [heq] at hp
  rcases List.mem_filterMap.mp hp with ⟨q, hq, hval⟩
  by_cases hc : q.1 + 2 ≥ cookie
  · rw [if_pos hc] at hval
    obtain rfl : (q.1 + 3, q.2) = p := Option.some.inj hval
    exact ⟨by omega, by omega⟩
  · rw [if_neg hc] at hval
    exact absurd hval (by simp)

/-- C6 counterexample: directory with two 32-byte names, supplied
`cookie = 3`, unlimited budgets, and the correct verifier sample for
this directory.  The reply holds only the entry with cookie 4: the
first entry, whose cookie value 3 satisfies `3 ≥ cookie`, is *not*
emitted (the code's test is `(i + 2) ≥ cookie`), contradicting the
claim's "emitted iff cookie value ≥ supplied cookie". -/
theorem readdir_counterexample_c6 :
    (readdir_execute [List.replicate 32 97, List.replicate 32 98] 3
        [97, 97, 97, 97, 98, 98, 98, 98] 0 0).entryList =
      [(4, List.replicate 32 98)] := by
  decide

/-- Witness for C6's amended theorem at a two-name directory with
cookie 3: the selection holds exactly the entry with cookie 4 and the
chain links it. -/
theorem readdir_cookie_spec_witness :
    readdirSelect [[10], [20]] 3 0 0 = [(4, [20])] ∧
    buildChain (readdirSelect [[10], [20]] 3 0 0) = chainOf [(4, [20])] := by
  have h := readdir_cookie_spec [[10], [20]] 3 0
  refine ⟨by rw [h.1]; decide, ?_⟩
  rw [h.2.2, h.1]
  exact congrArg chainOf (by decide)

/-- The spec's formula for the cookie verifier (for comparison with the
code): sample every `⌈len/8⌉`-th byte of the concatenated names and
zero-pad to 8 bytes. -/
def claimCookieverf (fnames : List (List Nat)) : List Nat :=
  cookieverfPad (stepBy ((fnames.flatten.length + 7) / 8) fnames.flatten)

/-- C5 (amended).  The verifier sample steps by `len / 8 + 1` (not
`⌈len/8⌉`), and the NOT_SAME comparison happens against the *un-padded*
sample: READDIR fails with `NOT_SAME` exactly when the supplied cookie
is nonzero and the supplied 8-byte verifier differs from the raw sample
(so whenever the sample is shorter than 8 bytes, any nonzero-cookie call
fails); on success the reply's verifier is the zero-padded sample, which
is all-zero for an empty directory. -/
theorem readdir_cookieverf_spec (fnames : List (List Nat)) (cookie : Nat)
    (cookieverfArg : List Nat) (dircount maxcount : Nat) :
    (readdir_execute fnames cookie cookieverfArg dircount maxcount = .notSame ↔
      cookie ≠ 0 ∧ cookieverfSample fnames ≠ cookieverfArg) ∧
    (¬(cookie ≠ 0 ∧ cookieverfSample fnames ≠ cookieverfArg) →
      (readdir_execute fnames cookie cookieverfArg dircount maxcount).verf =
        some (cookieverfPad (cookieverfSample fnames))) ∧
    (fnames.flatten = [] →
      cookieverfPad (cookieverfSample fnames) = List.replicate 8 0) := by
  refine ⟨⟨?_, ?_⟩, ?_, ?_⟩
  · intro h
    by_contra hc
    simp only [readdir_execute, if_neg hc] at h
    cases h
  · intro h
    simp only [readdir_execute, if_pos h]
  · intro h
    simp only [readdir_execute, if_neg h, ReaddirResult.verf]
  · intro h
    simp [cookieverfSample, cookieverfPad, stepBy, h]

/-- C5 counterexample.  (i) Directory with the single name "ab": the
sample is the 2-byte `[97, 98]`, the claim's computed verifier is the
padded `[97, 98, 0, 0, 0, 0, 0, 0]`; supplying exactly that verifier
with `cookie = 3` still fails with `NOT_SAME`, because the code compares
the un-padded sample.  (ii) Directory with the single 8-byte name
"abcdefgh": the code's verifier steps by `8/8 + 1 = 2` and yields
`[97, 99, 101, 103, 0, 0, 0, 0]`, while the claim's `⌈8/8⌉ = 1` formula
yields all eight bytes. -/
theorem readdir_counterexample_c5 :
    readdir_execute [[97, 98]] 3 (claimCookieverf [[97, 98]]) 0 0 = .notSame ∧
    claimCookieverf [[97, 98]] = [97, 98, 0, 0, 0, 0, 0, 0] ∧
    (readdir_execute [[97, 98, 99, 100, 101, 102, 103, 104]] 0
        (List.replicate 8 0) 0 0).verf = some [97, 99, 101, 103, 0, 0, 0, 0] ∧
    claimCookieverf [[97, 98, 99, 100, 101, 102, 103, 104]] =
      [97, 98, 99, 100, 101, 102, 103, 104] := by
  refine ⟨?_, by decide, ?_, by decide⟩
  · simp only [readdir_execute]
    rw [if_pos ⟨by decide, by decide⟩]
  · simp only [readdir_execute]
    rw [if_neg (by decide)]
    rfl

/-- Witness for C5 at a concrete directory with one 2-byte name and
`cookie = 0`: the call succeeds and the reply's verifier is the
zero-padded sample. -/
theorem readdir_cookieverf_spec_witness :
    (readdir_execute [[97, 98]] 0 [0, 0, 0, 0, 0, 0, 0, 0] 0 0).verf =
      some [97, 98, 0, 0, 0, 0, 0, 0] := by
  have h := (readdir_cookieverf_spec [[97, 98]] 0 [0, 0, 0, 0, 0, 0, 0, 0] 0 0).2.1
    (by decide)
  rw [h]
  decide

/-! ## PUTFH and the per-connection filehandle cache
(src/lib/src/server/nfs40/op_putfh.rs, `PutFh4args::execute`;
src/lib/src/server/request.rs, `NfsRequest::get_filehandle_from_cache`) -/

/-- A filehandle as the request context holds it: the opaque id plus a
stand-in `ver` for the remaining (here irrelevant) record attributes. -/
structure Filehandle where
  id : List Nat
  ver : Nat
  deriving DecidableEq, Repr

/-- The parts of `NfsRequest` that `PUTFH` touches: the current
filehandle and the per-connection `filehandle_cache` (a `HashMap` keyed
by filehandle id, each entry carrying its insertion time in seconds;
modelled as an association list with first-match lookup, insertion by
prepending). -/
structure NfsRequestState where
  filehandle : Option Filehandle
  filehandle_cache : List (List Nat × Nat × Filehandle)
  deriving DecidableEq, Repr

/-- `NfsRequest::cache_ttl` (10 seconds). -/
def cache_ttl : Nat := 10

/-- `NfsRequest::get_filehandle_from_cache` at time `now`: an entry
older than `cache_ttl` seconds is dropped (by the cached record's id)
and reported absent. -/
def get_filehandle_from_cache (st : NfsRequestState) (now : Nat)
    (filehandle_id : List Nat) : Option Filehandle × NfsRequestState :=
  match st.filehandle_cache.find? fun e => e.1 = filehandle_id with
  | some (_, time, fh) =>
    if now - time > cache_ttl then
      (none, { st with filehandle_cache :=
        st.filehandle_cache.filter fun e => e.1 ≠ fh.id })
    else (some fh, st)
  | none => (none, st)

/-- The `PutFh4res { status }` payload. -/
structure PutFh4res where
  status : NfsStat4
  deriving DecidableEq, Repr

/-- `PutFh4args::execute(object)`: consult the per-connection cache
first; on a hit set the current filehandle and return OK.  On a miss ask
the File Manager (`fm`, the oracle for
`FileManagerHandle::get_filehandle_for_id` inside
`NfsRequest::set_filehandle_id`): a success becomes the current
filehandle and is inserted into the cache with the current time; a
failure yields `STALE`, leaving the current filehandle as it was. -/
def putfh_execute (st : NfsRequestState) (now : Nat)
    (fm : List Nat → Option Filehandle) (object : List Nat) :
    NfsRequestState × PutFh4res × NfsStat4 :=
  match get_filehandle_from_cache st now object with
  | (some fh, st1) =>
    ({ st1 with filehandle := some fh }, ⟨NfsStat4.nfs4Ok⟩, NfsStat4.nfs4Ok)
  | (none, st1) =>
    match fm object with
    | some fh =>
      ({ st1 with
          filehandle := some fh
          filehandle_cache := (fh.id, now, fh) :: st1.filehandle_cache },
        ⟨NfsStat4.nfs4Ok⟩, NfsStat4.nfs4Ok)
    | none => (st1, ⟨NfsStat4.nfs4errStale⟩, NfsStat4.nfs4errStale)

/-- C7 (amended).  PUTFH(object): the per-connection cache is consulted
first, and an entry older than 10 seconds is evicted and treated as
absent; a cache hit becomes the current filehandle with status OK; on a
miss — including the miss produced by evicting an expired entry — a
successful File-Manager answer becomes the current filehandle and is
inserted into the cache; when the File Manager also fails, the status
is `STALE` and the current filehandle is left *unchanged* (not
cleared). -/
theorem putfh_spec (st : NfsRequestState) (now : Nat)
    (fm : List Nat → Option Filehandle) (object : List Nat) :
    (∀ k t fh, st.filehandle_cache.find? (fun e => e.1 = object) = some (k, t, fh) →
      now - t ≤ cache_ttl →
      putfh_execute st now fm object =
        ({ st with filehandle := some fh }, ⟨NfsStat4.nfs4Ok⟩, NfsStat4.nfs4Ok)) ∧
    (∀ k t fh, st.filehandle_cache.find? (fun e => e.1 = object) = some (k, t, fh) →
      now - t > cache_ttl → fm object = none →
      putfh_execute st now fm object =
        ({ st with filehandle_cache :=
            st.filehandle_cache.filter fun e => e.1 ≠ fh.id },
          ⟨NfsStat4.nfs4errStale⟩, NfsStat4.nfs4errStale) ∧
      (putfh_execute st now fm object).1.filehandle = st.filehandle) ∧
    (∀ k t fh, st.filehandle_cache.find? (fun e => e.1 = object) = some (k, t, fh) →
      now - t > cache_ttl → ∀ fh2, fm object = some fh2 →
      putfh_execute st now fm object =
        ({ st with
            filehandle := some fh2
            filehandle_cache := (fh2.id, now, fh2) ::
              st.filehandle_cache.filter fun e => e.1 ≠ fh.id },
          ⟨NfsStat4.nfs4Ok⟩, NfsStat4.nfs4Ok)) ∧
    (st.filehandle_cache.find? (fun e => e.1 = object) = none →
      (∀ fh, fm object = some fh →
        putfh_execute st now fm object =
          ({ st with
              filehandle := some fh
              filehandle_cache := (fh.id, now, fh) :: st.filehandle_cache },
            ⟨NfsStat4.nfs4Ok⟩, NfsStat4.nfs4Ok)) ∧
      (fm object = none →
        putfh_execute st now fm object =
          (st, ⟨NfsStat4.nfs4errStale⟩, NfsStat4.nfs4errStale))) := by
  refine ⟨?_, ?_, ?_, ?_⟩
  · intro k t fh hfind hfresh
    simp [putfh_execute, get_filehandle_from_cache, hfind, Nat.not_lt.mpr hfresh,
      Nat.not_lt_of_le hfresh]
  · intro k t fh hfind hstale hfm
    constructor
    · simp [putfh_execute, get_filehandle_from_cache, hfind, hstale, hfm]
    · simp [putfh_execute, get_filehandle_from_cache, hfind, hstale, hfm]
  · intro k t fh hfind hstale fh2 hfm
    simp [putfh_execute, get_filehandle_from_cache, hfind, hstale, hfm]
  · intro hfind
    constructor
    · intro fh hfm
      simp [putfh_execute, get_filehandle_from_cache, hfind, hfm]
    · intro hfm
      simp [putfh_execute, get_filehandle_from_cache, hfind, hfm]

/-- C7 counterexample: current filehandle set, empty cache, File Manager
failing; PUTFH returns `STALE` but the current filehandle is still the
old one — the claim's "the current filehandle is cleared" is false. -/
theorem putfh_counterexample_c7 :
    (putfh_execute ⟨some ⟨[1], 5⟩, []⟩ 3 (fun _ => none) [9]).2.2 =
      NfsStat4.nfs4errStale ∧
    (putfh_execute ⟨some ⟨[1], 5⟩, []⟩ 3 (fun _ => none) [9]).1.filehandle =
      some ⟨[1], 5⟩ := by
  constructor <;> rfl

/-- Witness for C7: a cache miss answered by the File Manager becomes
the current filehandle and is cached; a miss with a failing File
Manager returns `STALE` and keeps the current filehandle; and an
expired cache entry is evicted, after which the File Manager's
successful answer becomes current and is cached. -/
theorem putfh_spec_witness :
    putfh_execute ⟨none, []⟩ 3 (fun _ => some ⟨[9], 1⟩) [9] =
      (⟨some ⟨[9], 1⟩, [([9], 3, ⟨[9], 1⟩)]⟩, ⟨NfsStat4.nfs4Ok⟩, NfsStat4.nfs4Ok) ∧
    putfh_execute ⟨some ⟨[9], 1⟩, []⟩ 3 (fun _ => none) [7] =
      (⟨some ⟨[9], 1⟩, []⟩, ⟨NfsStat4.nfs4errStale⟩, NfsStat4.nfs4errStale) ∧
    putfh_execute ⟨none, [([7], 0, ⟨[7], 4⟩)]⟩ 20 (fun _ => some ⟨[7], 8⟩) [7] =
      (⟨some ⟨[7], 8⟩, [([7], 20, ⟨[7], 8⟩)]⟩, ⟨NfsStat4.nfs4Ok⟩, NfsStat4.nfs4Ok) := by
  refine ⟨?_, ?_, ?_⟩
  · exact ((putfh_spec ⟨none, []⟩ 3 (fun _ => some ⟨[9], 1⟩) [9]).2.2.2
      (by decide)).1 ⟨[9], 1⟩ rfl
  · exact ((putfh_spec ⟨some ⟨[9], 1⟩, []⟩ 3 (fun _ => none) [7]).2.2.2
      (by decide)).2 rfl
  · have h := (putfh_spec ⟨none, [([7], 0, ⟨[7], 4⟩)]⟩ 20
      (fun _ => some ⟨[7], 8⟩) [7]).2.2.1 [7] 0 ⟨[7], 4⟩ (by decide) (by decide)
      ⟨[7], 8⟩ rfl
    rw [h]
    rfl

/-! ## REMOVE (bold-lib/src/server/nfs40/op_remove.rs, `Remove4args::execute`) -/

/-- `ChangeInfo4`. -/
structure ChangeInfo4 where
  atomic : Bool
  before : Nat
  after : Nat
  deriving DecidableEq, Repr

/-- `Remove4res { status, cinfo }`. -/
structure Remove4res where
  status : NfsStat4
  cinfo : ChangeInfo4
  deriving DecidableEq, Repr

/-- `Remove4args::execute` for calls whose File-Manager removal succeeds
(the `Err` branch of the source is `todo!()`, i.e. a panic): without a
current filehandle both the payload status and the operation status are
`STALE`; with one, the payload carries status `OK` and the zeroed
`cinfo`, while the operation status — which terminates the COMPOUND —
is `STALE`. -/
def remove_execute (current : Option Filehandle) : Remove4res × NfsStat4 :=
  match current with
  | none =>
    (⟨NfsStat4.nfs4errStale, ⟨false, 0, 0⟩⟩, NfsStat4.nfs4errStale)
  | some _ =>
    (⟨NfsStat4.nfs4Ok, ⟨false, 0, 0⟩⟩, NfsStat4.nfs4errStale)

/-- C8.  REMOVE's status quirk: with a current filehandle and a
successful removal, the result payload has inner status `OK` with a
populated (zeroed, non-atomic) `cinfo` while the operation status is
`STALE`; without a current filehandle both statuses are `STALE`. -/
theorem remove_status_spec (current : Option Filehandle) :
    (current = none →
      remove_execute current =
        (⟨NfsStat4.nfs4errStale, ⟨false, 0, 0⟩⟩, NfsStat4.nfs4errStale)) ∧
    (∀ fh, current = some fh →
      (remove_execute current).1.status = NfsStat4.nfs4Ok ∧
      (remove_execute current).1.cinfo = ⟨false, 0, 0⟩ ∧
      (remove_execute current).2 = NfsStat4.nfs4errStale) := by
  constructor
  · intro h; rw [h]; rfl
  · intro fh h; rw [h]; exact ⟨rfl, rfl, rfl⟩

/-- Witness for C8 at both branches: a concrete current filehandle and
the absent one. -/
theorem remove_status_spec_witness :
    remove_execute none =
      (⟨NfsStat4.nfs4errStale, ⟨false, 0, 0⟩⟩, NfsStat4.nfs4errStale) ∧
    (remove_execute (some ⟨[128], 0⟩)).1.status = NfsStat4.nfs4Ok ∧
    (remove_execute (some ⟨[128], 0⟩)).2 = NfsStat4.nfs4errStale := by
  refine ⟨(remove_status_spec none).1 rfl, ?_, ?_⟩
  · exact ((remove_status_spec (some ⟨[128], 0⟩)).2 ⟨[128], 0⟩ rfl).1
  · exact ((remove_status_spec (some ⟨[128], 0⟩)).2 ⟨[128], 0⟩ rfl).2.2

/-! ## READ (bold-lib/src/server/nfs40/op_read.rs, `Read4args::execute`) -/

/-- `Read4resok { eof, data }`. -/
structure Read4resok where
  eof : Bool
  data : List Nat
  deriving DecidableEq, Repr

/-- `read_exact` into the preallocated zero buffer of `count` bytes
after seeking to `offset`, its `Result` ignored (`let _ = …`): the bytes
available at `offset` fill the buffer's prefix and the rest keeps the
zero fill (std `read_exact` reads as much as possible before reporting
`UnexpectedEof`). -/
def readIntoZeroBuffer (fileBytes : List Nat) (offset count : Nat) : List Nat :=
  let available := (fileBytes.drop offset).take count
  available ++ List.replicate (count - available.length) 0

/-- `Read4args::execute`: without a current filehandle, `FHEXPIRED` and
no result; with one, status `OK`, `eof` hard-coded `true`, and the
zero-initialised `count`-byte buffer filled from the file. -/
def read_execute (current : Option Filehandle) (fileBytes : List Nat)
    (offset count : Nat) : Option Read4resok × NfsStat4 :=
  match current with
  | none => (none, NfsStat4.nfs4errFhexpired)
  | some _ =>
    (some ⟨true, readIntoZeroBuffer fileBytes offset count⟩, NfsStat4.nfs4Ok)

/-- C10.  READ with a current filehandle always returns `OK` with a data
buffer of exactly `count` bytes: the bytes present in the backing file
from `offset` on, zero-padded — never truncated — when the file holds
fewer than `offset + count` bytes. -/
theorem read_zero_padding_spec (fh : Filehandle) (fileBytes : List Nat)
    (offset count : Nat) :
    read_execute (some fh) fileBytes offset count =
      (some ⟨true, readIntoZeroBuffer fileBytes offset count⟩, NfsStat4.nfs4Ok) ∧
    (readIntoZeroBuffer fileBytes offset count).length = count ∧
    (fileBytes.length ≤ offset + count →
      readIntoZeroBuffer fileBytes offset count =
        fileBytes.drop offset ++
          List.replicate (count - (fileBytes.length - offset)) 0) := by
  refine ⟨rfl, ?_, ?_⟩
  · unfold readIntoZeroBuffer
    rw [List.length_append, List.length_replicate]
    have h := List.length_take_le count (fileBytes.drop offset)
    omega
  · intro hshort
    unfold readIntoZeroBuffer
    have hdl : (fileBytes.drop offset).length = fileBytes.length - offset :=
      List.length_drop _ _
    have htake : (fileBytes.drop offset).take count = fileBytes.drop offset :=
      List.take_of_length_le (by omega)
    simp only [htake, hdl]

/-- Witness for C10 at a concrete short file: reading 6 bytes at offset
2 of the 4-byte file `[1, 2, 3, 4]` returns OK with `[3, 4]` padded by
four zero bytes. -/
theorem read_zero_padding_spec_witness :
    read_execute (some ⟨[128], 0⟩) [1, 2, 3, 4] 2 6 =
      (some ⟨true, [3, 4, 0, 0, 0, 0]⟩, NfsStat4.nfs4Ok) ∧
    (readIntoZeroBuffer [1, 2, 3, 4] 2 6).length = 6 := by
  have h := read_zero_padding_spec ⟨[128], 0⟩ [1, 2, 3, 4] 2 6
  refine ⟨?_, h.2.1⟩
  rw [h.1]
  have h3 := h.2.2 (by decide)
  rw [h3]
  rfl

/-! ## Attribute bitmap codec (src/proto/src/utils.rs)

`FileAttr` variants are identified with their `u32` discriminants, the
contiguous range 0..55 (proto/src/nfs4_proto.rs, `FileAttr`);
`FromPrimitive::from_u32` succeeds exactly on values ≤ 55. -/

/-- The per-word body of `Attrlist4::<FileAttr>::from_u32`: for the
word at index `idx`, the attribute `idx * 32 + n` for every set bit `n`
whose value maps to a `FileAttr`. -/
def from_u32_word (idx w : Nat) : List Nat :=
  (List.range 32).filterMap fun n =>
    if (w >>> n) % 2 = 1 ∧ idx * 32 + n ≤ 55 then some (idx * 32 + n) else none

/-- The `for (idx, segment) in raw.iter().enumerate()` loop of
`from_u32`, carrying the word index. -/
def from_u32_go (idx : Nat) : List Nat → List Nat
  | [] => []
  | w :: rest => from_u32_word idx w ++ from_u32_go (idx + 1) rest

/-- `Attrlist4::<FileAttr>::from_u32` (the bitmap decoder). -/
def from_u32 (raw : List Nat) : List Nat := from_u32_go 0 raw

/-- One iteration of the `while let Some(idx) = idxs.pop()` loop of
`file_attrs_to_bitmap`: when `(idx.div_ceil(31) as i16) - 1 >
attrs.len() as i16` — in `Nat` terms `(idx + 30) / 31 > attrs.len() + 1`
— push the current segment and reset it, then add the bit
`2 ^ (idx % 32)`. -/
def bitmapStep : List Nat × Nat → Nat → List Nat × Nat
  | (attrs, segment), idx =>
    if (idx + 30) / 31 > attrs.length + 1 then (attrs ++ [segment], 2 ^ (idx % 32))
    else (attrs, segment + 2 ^ (idx % 32))

/-- `Attrlist4::<FileAttr>::file_attrs_to_bitmap` (the encoder): the
indices are processed in list order (the source reverses `idxs` and pops
from the back); the final segment is pushed after the loop. -/
def file_attrs_to_bitmap (attrlist : List Nat) : List Nat :=
  let st := attrlist.foldl bitmapStep ([], 0)
  st.1 ++ [st.2]

/-- The indices of the set bits of `w` below `k`, in increasing
order. -/
def bitIdx (k w : Nat) : List Nat :=
  (List.range k).filterMap fun n => if (w >>> n) % 2 = 1 then some n else none

/-- Sum of `2 ^ n` over a list of bit indices. -/
def sum2 (l : List Nat) : Nat := (l.map fun n => 2 ^ n).sum

/-- Sum of `2 ^ (n % 32)` over a list (the encoder's bit value). -/
def sum2p (l : List Nat) : Nat := (l.map fun n => 2 ^ (n % 32)).sum

theorem shiftRight_succ_div (w n : Nat) : w >>> (n + 1) = (w / 2) >>> n := by
  simp only [Nat.shiftRight_eq_div_pow]
  rw [Nat.div_div_eq_div_mul, Nat.pow_succ, Nat.mul_comm 2 (2 ^ n)]

theorem bitIdx_succ (k w : Nat) :
    bitIdx (k + 1) w =
      (if w % 2 = 1 then [0] else []) ++ (bitIdx k (w / 2)).map (· + 1) := by
  have htail :
      List.filterMap (fun n => if (w >>> n) % 2 = 1 then some n else none)
        ((List.range k).map Nat.succ) = (bitIdx k (w / 2)).map (· + 1) := by
    rw [List.filterMap_map]
    unfold bitIdx
    rw [List.map_filterMap]
    apply List.filterMap_congr
    intro n _
    show (if (w >>> (n + 1)) % 2 = 1 then some (n + 1) else none) = _
    rw [shiftRight_succ_div]
    by_cases hc : ((w / 2) >>> n) % 2 = 1 <;> simp [hc]
  unfold bitIdx
  rw [List.range_succ_eq_map, List.filterMap_cons, htail]
  by_cases h0 : w % 2 = 1 <;> simp [Nat.shiftRight_zero, h0, bitIdx]

theorem sum2_cons (x : Nat) (l : List Nat) : sum2 (x :: l) = 2 ^ x + sum2 l := by
  simp [sum2]

theorem sum2_append (l1 l2 : List Nat) : sum2 (l1 ++ l2) = sum2 l1 + sum2 l2 := by
  simp [sum2]

theorem sum2_map_add_one (l : List Nat) : sum2 (l.map (· + 1)) = 2 * sum2 l := by
  induction l with
  | nil => rfl
  | cons x xs ih =>
    rw [List.map_cons, sum2_cons, sum2_cons, ih]
    have hp : 2 ^ (x + 1) = 2 * 2 ^ x := by
      rw [Nat.pow_succ, Nat.mul_comm]
    omega

theorem sum2_bitIdx (k : Nat) : ∀ w, w < 2 ^ k → sum2 (bitIdx k w) = w := by
  induction k with
  | zero =>
    intro w hw
    have : w = 0 := by omega
    subst this
    rfl
  | succ k ih =>
    intro w hw
    rw [bitIdx_succ, sum2_append, sum2_map_add_one]
    have hp : 2 ^ (k + 1) = 2 ^ k * 2 := Nat.pow_succ 2 k
    have hdiv : w / 2 < 2 ^ k := by
      rw [Nat.div_lt_iff_lt_mul (by norm_num)]
      omega
    rw [ih (w / 2) hdiv]
    by_cases h0 : w % 2 = 1
    · rw [if_pos h0]
      have : sum2 [0] = 1 := rfl
      rw [this]
      omega
    · rw [if_neg h0]
      have : sum2 [] = 0 := rfl
      rw [this]
      omega

theorem sum2_bitIdx_le (k : Nat) : ∀ w, sum2 (bitIdx k w) ≤ 2 ^ k - 1 := by
  induction k with
  | zero => intro w; exact Nat.le_refl 0
  | succ k ih =>
    intro w
    rw [bitIdx_succ, sum2_append, sum2_map_add_one]
    have h1 := ih (w / 2)
    have h2 : 1 ≤ 2 ^ k := Nat.one_le_two_pow
    have hp : 2 ^ (k + 1) = 2 ^ k * 2 := Nat.pow_succ 2 k
    by_cases h0 : w % 2 = 1
    · rw [if_pos h0]
      have : sum2 [0] = 1 := rfl
      rw [this]
      omega
    · rw [if_neg h0]
      have : sum2 [] = 0 := rfl
      rw [this]
      omega

theorem bitIdx_eq_nil {k w : Nat} (h : ∀ n, n < k → (w >>> n) % 2 ≠ 1) :
    bitIdx k w = [] := by
  unfold bitIdx
  rw [List.filterMap_eq_nil]
  intro n hn
  rw [if_neg (h n (List.mem_range.mp hn))]

theorem eq_zero_of_no_bits {w : Nat} (hw : w < 2 ^ 32)
    (h : ∀ n, n < 32 → (w >>> n) % 2 ≠ 1) : w = 0 := by
  have hs := sum2_bitIdx 32 w hw
  rw [bitIdx_eq_nil h] at hs
  have : sum2 [] = 0 := rfl
  omega

theorem lt_pow24_of_bits {w : Nat} (hw : w < 2 ^ 32)
    (h : ∀ n, 24 ≤ n → n < 32 → (w >>> n) % 2 ≠ 1) : w < 2 ^ 24 := by
  have hsplit : bitIdx 32 w = bitIdx 24 w := by
    unfold bitIdx
    have hr : List.range 32 = List.range 24 ++ (List.range 8).map (24 + ·) := by
      rw [← List.range_add]
    rw [hr, List.filterMap_append, List.filterMap_map]
    have hnil : List.filterMap
        ((fun n => if (w >>> n) % 2 = 1 then some n else none) ∘ (24 + ·))
        (List.range 8) = [] := by
      rw [List.filterMap_eq_nil]
      intro n hn
      have hn8 : n < 8 := List.mem_range.mp hn
      show (if (w >>> (24 + n)) % 2 = 1 then some (24 + n) else none) = none
      rw [if_neg (h (24 + n) (by omega) (by omega))]
    rw [hnil, List.append_nil]
  have h1 := sum2_bitIdx 32 w hw
  rw [hsplit] at h1
  have h2 := sum2_bitIdx_le 24 w
  have h3 : 1 ≤ 2 ^ 24 := Nat.one_le_two_pow
  omega

theorem mem_bitIdx {k w x : Nat} (h : x ∈ bitIdx k w) :
    x < k ∧ (w >>> x) % 2 = 1 := by
  unfold bitIdx at h
  rcases List.mem_filterMap.mp h with ⟨n, hn, hval⟩
  by_cases hb : (w >>> n) % 2 = 1
  · rw [if_pos hb] at hval
    obtain rfl := Option.some.inj hval
    exact ⟨List.mem_range.mp hn, hb⟩
  · rw [if_neg hb] at hval
    exact absurd hval (by simp)

theorem sum2p_cons (x : Nat) (l : List Nat) :
    sum2p (x :: l) = 2 ^ (x % 32) + sum2p l := by
  simp [sum2p]

theorem foldl_bitmapStep_stay (l : List Nat) :
    ∀ (attrs : List Nat) (seg : Nat),
      (∀ x ∈ l, (x + 30) / 31 ≤ attrs.length + 1) →
      l.foldl bitmapStep (attrs, seg) = (attrs, seg + sum2p l) := by
  induction l with
  | nil => intro attrs seg _; simp [sum2p]
  | cons x xs ih =>
    intro attrs seg h
    have hx := h x (List.mem_cons_self _ _)
    rw [List.foldl_cons]
    have hstep : bitmapStep (attrs, seg) x = (attrs, seg + 2 ^ (x % 32)) := by
      simp only [bitmapStep]
      rw [if_neg (by omega)]
    rw [hstep, ih attrs _ fun y hy => h y (List.mem_cons_of_mem _ hy), sum2p_cons]
    rw [Nat.add_assoc]

theorem sum2p_eq_sum2 {l : List Nat} (h : ∀ x ∈ l, x < 32) : sum2p l = sum2 l := by
  unfold sum2p sum2
  congr 1
  apply List.map_congr_left
  intro x hx
  rw [Nat.mod_eq_of_lt (h x hx)]

theorem from_u32_word_zero (w : Nat) : from_u32_word 0 w = bitIdx 32 w := by
  unfold from_u32_word bitIdx
  apply List.filterMap_congr
  intro n hn
  have hn32 : n < 32 := List.mem_range.mp hn
  have h55 : n ≤ 55 := by omega
  simp [h55]

theorem from_u32_word_one {w : Nat} (hw : w < 2 ^ 24) :
    from_u32_word 1 w = (bitIdx 32 w).map (32 + ·) := by
  unfold from_u32_word bitIdx
  rw [List.map_filterMap]
  apply List.filterMap_congr
  intro n hn
  have hn32 : n < 32 := List.mem_range.mp hn
  by_cases h24 : n ≤ 23
  · have h55 : 1 * 32 + n ≤ 55 := by omega
    by_cases hbit : (w >>> n) % 2 = 1 <;> simp [hbit, h55]
  · have hz : w >>> n = 0 := by
      rw [Nat.shiftRight_eq_div_pow]
      exact Nat.div_eq_of_lt
        (lt_of_lt_of_le hw (Nat.pow_le_pow_right (by norm_num) (by omega)))
    simp [hz]

theorem mem_bitIdx_le23 {w x : Nat} (hw : w < 2 ^ 24) (hx : x ∈ bitIdx 32 w) :
    x ≤ 23 := by
  rcases mem_bitIdx hx with ⟨h32, hbit⟩
  by_contra hgt
  have hz : w >>> x = 0 := by
    rw [Nat.shiftRight_eq_div_pow]
    exact Nat.div_eq_of_lt
      (lt_of_lt_of_le hw (Nat.pow_le_pow_right (by norm_num) (by omega)))
  rw [hz] at hbit
  simp at hbit

theorem bitmap_round_trip_one {w0 : Nat} (hw : w0 < 2 ^ 32) :
    file_attrs_to_bitmap (from_u32 [w0]) = [w0] := by
  have hdec : from_u32 [w0] = bitIdx 32 w0 := by
    show from_u32_word 0 w0 ++ from_u32_go 1 [] = bitIdx 32 w0
    rw [from_u32_word_zero]
    simp [from_u32_go]
  have hb : ∀ x ∈ bitIdx 32 w0, (x + 30) / 31 ≤ ([] : List Nat).length + 1 := by
    intro x hx
    have := (mem_bitIdx hx).1
    simp only [List.length_nil]
    omega
  rw [hdec]
  simp only [file_attrs_to_bitmap]
  rw [foldl_bitmapStep_stay _ [] 0 hb]
  show [0 + sum2p (bitIdx 32 w0)] = [w0]
  rw [Nat.zero_add, sum2p_eq_sum2 fun x hx => (mem_bitIdx hx).1, sum2_bitIdx 32 w0 hw]

theorem bitmap_round_trip_two {w0 w1 : Nat} (hw0 : w0 < 2 ^ 32) (hw1 : w1 < 2 ^ 24)
    (hne : w1 ≠ 0) :
    file_attrs_to_bitmap (from_u32 [w0, w1]) = [w0, w1] := by
  have hdec : from_u32 [w0, w1] = bitIdx 32 w0 ++ (bitIdx 32 w1).map (32 + ·) := by
    show from_u32_word 0 w0 ++ (from_u32_word 1 w1 ++ from_u32_go 2 []) = _
    rw [from_u32_word_zero, from_u32_word_one hw1]
    simp [from_u32_go]
  have hw1' : w1 < 2 ^ 32 := lt_of_lt_of_le hw1 (by norm_num)
  rcases hB : bitIdx 32 w1 with _ | ⟨b0, brest⟩
  · exfalso
    have hs := sum2_bitIdx 32 w1 hw1'
    rw [hB] at hs
    have h0 : sum2 [] = 0 := rfl
    omega
  · have hb0 : b0 ≤ 23 :=
      mem_bitIdx_le23 hw1 (by rw [hB]; exact List.mem_cons_self _ _)
    rw [hdec, hB]
    simp only [file_attrs_to_bitmap, List.map_cons]
    rw [List.foldl_append]
    have hb : ∀ x ∈ bitIdx 32 w0, (x + 30) / 31 ≤ ([] : List Nat).length + 1 := by
      intro x hx
      have := (mem_bitIdx hx).1
      simp only [List.length_nil]
      omega
    rw [foldl_bitmapStep_stay _ [] 0 hb]
    rw [List.foldl_cons]
    have hstep : bitmapStep (([] : List Nat), 0 + sum2p (bitIdx 32 w0)) (32 + b0) =
        ([0 + sum2p (bitIdx 32 w0)], 2 ^ ((32 + b0) % 32)) := by
      simp only [bitmapStep]
      rw [if_pos (by simp only [List.length_nil]; omega)]
      rw [List.nil_append]
    rw [hstep]
    have hb2 : ∀ x ∈ brest.map (32 + ·),
        (x + 30) / 31 ≤ ([0 + sum2p (bitIdx 32 w0)] : List Nat).length + 1 := by
      intro x hx
      rcases List.mem_map.mp hx with ⟨n, hn, rfl⟩
      have h23 : n ≤ 23 :=
        mem_bitIdx_le23 hw1 (by rw [hB]; exact List.mem_cons_of_mem _ hn)
      simp only [List.length_cons, List.length_nil]
      omega
    rw [foldl_bitmapStep_stay _ _ _ hb2]
    show [0 + sum2p (bitIdx 32 w0),
      2 ^ ((32 + b0) % 32) + sum2p (brest.map (32 + ·))] = [w0, w1]
    have e0 : 0 + sum2p (bitIdx 32 w0) = w0 := by
      rw [Nat.zero_add, sum2p_eq_sum2 fun x hx => (mem_bitIdx hx).1,
        sum2_bitIdx 32 w0 hw0]
    have em : (32 + b0) % 32 = b0 := by omega
    have e1 : sum2p (brest.map (32 + ·)) = sum2 brest := by
      unfold sum2p sum2
      rw [List.map_map]
      congr 1
      apply List.map_congr_left
      intro n hn
      have h23 : n ≤ 23 :=
        mem_bitIdx_le23 hw1 (by rw [hB]; exact List.mem_cons_of_mem _ hn)
      show 2 ^ ((32 + n) % 32) = 2 ^ n
      congr 1
      omega
    rw [e0, em, e1]
    have hw1eq : 2 ^ b0 + sum2 brest = w1 := by
      have hs := sum2_bitIdx 32 w1 hw1'
      rw [hB, sum2_cons] at hs
      exact hs
    rw [hw1eq]

/-- A supported-attribute bitmap: an array of `u32` words in which every
set bit denotes a supported attribute (bit index at most 55). -/
def SupportedBitmap (b : List Nat) : Prop :=
  ∀ i w, b.get? i = some w →
    w < 2 ^ 32 ∧ ∀ n, n < 32 → (w >>> n) % 2 = 1 → i * 32 + n ≤ 55

/-- C9 (amended).  The bitmap round-trip `encode(decode(b)) = b` holds
for every supported-attribute bitmap without trailing zero words: every
one-word bitmap (including `[0]`) and every two-word bitmap whose last
word is nonzero.  These are all such bitmaps: in any supported bitmap
every word beyond the first two is zero (bit indices ≥ 64 exceed 55),
so longer bitmaps necessarily carry trailing zero words — which the
encoder strips (see the counterexample). -/
theorem bitmap_round_trip :
    (∀ b, SupportedBitmap b → b.length = 1 →
      file_attrs_to_bitmap (from_u32 b) = b) ∧
    (∀ b, SupportedBitmap b → b.length = 2 → b.getLast? ≠ some 0 →
      file_attrs_to_bitmap (from_u32 b) = b) ∧
    (∀ b, SupportedBitmap b → ∀ w ∈ b.drop 2, w = 0) := by
  refine ⟨?_, ?_, ?_⟩
  · intro b hb hlen
    rcases b with _ | ⟨w0, _ | ⟨w1, rest⟩⟩
    · simp at hlen
    · exact bitmap_round_trip_one (hb 0 w0 rfl).1
    · simp at hlen
  · intro b hb hlen hlast
    rcases b with _ | ⟨w0, _ | ⟨w1, _ | ⟨w2, rest⟩⟩⟩
    · simp at hlen
    · simp at hlen
    · have h0 := hb 0 w0 rfl
      have h1 := hb 1 w1 rfl
      have hw1ne : w1 ≠ 0 := by
        intro h
        exact hlast (by rw [h]; rfl)
      have hw1lt : w1 < 2 ^ 24 := by
        apply lt_pow24_of_bits h1.1
        intro n h24 h32 hbit
        have := h1.2 n h32 hbit
        omega
      exact bitmap_round_trip_two h0.1 hw1lt hw1ne
    · simp at hlen
  · intro b hb w hw
    rcases List.mem_iff_get?.mp hw with ⟨j, hj⟩
    rw [List.get?_drop] at hj
    have h := hb (2 + j) w hj
    apply eq_zero_of_no_bits h.1
    intro n hn hbit
    have := h.2 n hn hbit
    omega

/-- C9 counterexample: the supported-attribute bitmap `[1, 0]` (bit 0 =
`SupportedAttrs`, plus a trailing zero word) does not round-trip:
decoding yields the attribute list `[0]` and re-encoding yields `[1]`,
dropping the trailing zero word. -/
theorem bitmap_counterexample_c9 :
    file_attrs_to_bitmap (from_u32 [1, 0]) = [1] ∧
    ([1] : List Nat) ≠ [1, 0] ∧
    SupportedBitmap [1, 0] := by
  refine ⟨by decide, by decide, ?_⟩
  intro i w h
  rcases i with _ | _ | i
  · obtain rfl : w = 1 := by simpa using h.symm
    exact ⟨by norm_num, by decide⟩
  · obtain rfl : w = 0 := by simpa using h.symm
    exact ⟨by norm_num, by decide⟩
  · simp at h

/-- Witness for C9 at two concrete bitmaps: the one-word bitmap with the
top bit (attribute 31) set round-trips, and the two-word bitmap `[5, 9]`
(attributes 0, 2, 32, 35) round-trips. -/
theorem bitmap_round_trip_witness :
    file_attrs_to_bitmap (from_u32 [2147483648]) = [2147483648] ∧
    file_attrs_to_bitmap (from_u32 [5, 9]) = [5, 9] := by
  have hsb1 : SupportedBitmap [2147483648] := by
    intro i w h
    rcases i with _ | i
    · obtain rfl : w = 2147483648 := by simpa using h.symm
      exact ⟨by norm_num, by decide⟩
    · simp at h
  have hsb2 : SupportedBitmap [5, 9] := by
    intro i w h
    rcases i with _ | _ | i
    · obtain rfl : w = 5 := by simpa using h.symm
      exact ⟨by norm_num, by decide⟩
    · obtain rfl : w = 9 := by simpa using h.symm
      exact ⟨by norm_num, by decide⟩
    · simp at h
  exact ⟨bitmap_round_trip.1 [2147483648] hsb1 rfl,
    bitmap_round_trip.2.1 [5, 9] hsb2 rfl (by decide)⟩

end BoldNfs
